import Mathlib

/-!
Verification of the bible_love text pipeline.

This file gives a shallow embedding, over `List Char`, of the core of the
repository:

* `tools/split_kjv_raw.py` — the locator scanner (`MARK_RE` / `re.finditer`),
  the segment accumulator and duplicate-locator merge (`parse_raw`, `flush`,
  `normalize_spaces`);
* `tools/verify_chapter.py` — the strict format validator (header/title/verse
  regexes, blank-line check, verse-number continuity checks, empty-EN warning);
* `tools/verify/verify_chapter.py` — the alternate validator (blank-line
  filtering, the archaic `unto` rule, `check_consecutive_duplicate_gloss`);
* `tools/build_chapter_en_only.py` — the record emitter.

Python regular expressions are embedded as deterministic parsing functions:
for each regex used by the code the greedy/backtracking behaviour is resolved
by hand (all quantified classes in these regexes are followed by a character
outside the class, so each quantifier takes its maximal run).  Character
classes are modelled on their ASCII fragment (`Char.isAlpha`, `Char.isDigit`,
`Char.isWhitespace`), matching the inputs the scripts process.
-/

/-! ### Generic string helpers (Python `str` operations) -/

/-- Python `s.strip()`: drop whitespace from both ends. -/
def pstrip (l : List Char) : List Char :=
  ((l.dropWhile (fun c => c.isWhitespace)).reverse.dropWhile (fun c => c.isWhitespace)).reverse

/-- Python `s.strip("\n")`: drop newline characters from both ends. -/
def stripNL (l : List Char) : List Char :=
  ((l.dropWhile (fun c => c = '\n')).reverse.dropWhile (fun c => c = '\n')).reverse

/-- Helper for `splitRaw`: prepend a character to the first piece. -/
def consHead (c : Char) : List (List Char) → List (List Char)
  | [] => [[c]]
  | p :: ps => (c :: p) :: ps

/-- Split on every newline; always returns at least one piece. -/
def splitRaw : List Char → List (List Char)
  | [] => [[]]
  | c :: cs => if c = '\n' then [] :: splitRaw cs else consHead c (splitRaw cs)

/-- Python `str.splitlines` (for `\n`-separated text): split on newlines and
drop the final piece when it is empty. -/
def splitLines (l : List Char) : List (List Char) :=
  let ps := splitRaw l
  if ps.getLast? = some [] then ps.dropLast else ps

/-- Accumulator pass of `words`: collect maximal non-whitespace runs. -/
def wordsAux : List Char → List Char → List (List Char)
  | [], acc => if acc = [] then [] else [acc.reverse]
  | c :: cs, acc =>
    if c.isWhitespace then
      (if acc = [] then wordsAux cs [] else acc.reverse :: wordsAux cs [])
    else wordsAux cs (c :: acc)

/-- The maximal non-whitespace runs of a string, in order. -/
def words (l : List Char) : List (List Char) := wordsAux l []

/-- Join words with single spaces. -/
def joinWords : List (List Char) → List Char
  | [] => []
  | [w] => w
  | w :: ws => w ++ ' ' :: joinWords ws

/-- Python `re.sub(r'\s+', ' ', s).strip()` from `split_kjv_raw.py`:
collapse every whitespace run to one space and trim the ends.  Collapsing
runs and trimming is the same as joining the maximal non-whitespace runs
with single spaces. -/
def normalize_spaces (l : List Char) : List Char := joinWords (words l)

/-- Python substring test `pat in s`. -/
def occurs (pat : List Char) : List Char → Bool
  | [] => List.isPrefixOf pat []
  | c :: cs => List.isPrefixOf pat (c :: cs) || occurs pat cs

/-- Python `s.find(pat)` (first occurrence), as an index option. -/
def findSub (pat : List Char) : List Char → Option Nat
  | [] => if List.isPrefixOf pat ([] : List Char) then some 0 else none
  | c :: cs =>
    if List.isPrefixOf pat (c :: cs) then some 0
    else (findSub pat cs).map (fun n => n + 1)

/-- Python `s.find(pat)` with the `-1` convention. -/
def findI (pat l : List Char) : Int :=
  match findSub pat l with
  | some n => (n : Int)
  | none => -1

/-- Match a literal prefix and return the remainder (regex literal text). -/
def stripPre (pat l : List Char) : Option (List Char) :=
  if List.isPrefixOf pat l then some (l.drop pat.length) else none

/-- Split at the LAST occurrence of `pat` (how a greedy `(.*)` before a
literal resolves in `re.match`). -/
def splitLastAt (pat : List Char) : List Char → Option (List Char × List Char)
  | [] => none
  | c :: cs =>
    match splitLastAt pat cs with
    | some (a, b) => some (c :: a, b)
    | none =>
      if List.isPrefixOf pat (c :: cs) then some ([], (c :: cs).drop pat.length)
      else none

/-- Split at the last occurrence of `pat` that has a nonempty part before it
and a nonempty part after it (how `(.+)pat(.+)$` resolves in `re.match`). -/
def splitLastPlus (pat : List Char) : List Char → Option (List Char × List Char)
  | [] => none
  | c :: cs =>
    match splitLastPlus pat cs with
    | some (a, b) => some (c :: a, b)
    | none =>
      if List.isPrefixOf pat cs ∧ cs.drop pat.length ≠ [] then
        some ([c], cs.drop pat.length)
      else none

/-- Decimal digits to a number (Python `int` on a digit string). -/
def digitsToNat (ds : List Char) : Nat :=
  ds.foldl (fun a c => a * 10 + (c.toNat - 48)) 0

/-! ### The locator scanner (`MARK_RE = (?<!\d)(\d+):(\d+)(?=\D|$)` with
`re.finditer`, from `split_kjv_raw.py`)

`finditer` tries each position left to right and resumes after a match.  At a
given start the two `\d+` runs are forced to be maximal (a shorter run would
be followed by a digit, which neither `:` nor `(?=\D|$)` accepts), so a match
attempt at `pos` is: the previous character is not a digit, a maximal digit
run, a colon, a nonempty maximal digit run.  The fuel argument (one unit per
inspected position) makes the recursion structural; `s.length` units always
suffice because every step advances the position. -/

def scanAux (s : List Char) : Nat → Nat → List (Nat × Nat × Nat × Nat)
  | 0, _ => []
  | fuel + 1, pos =>
    if pos < s.length then
      if (s.getD pos ' ').isDigit = true ∧
          (pos = 0 ∨ (s.getD (pos - 1) ' ').isDigit = false) then
        let d1 := (s.drop pos).takeWhile (fun c => c.isDigit)
        let d2 := (s.drop (pos + d1.length + 1)).takeWhile (fun c => c.isDigit)
        if s.getD (pos + d1.length) ' ' = ':' ∧ d2 ≠ [] then
          (pos, pos + d1.length + 1 + d2.length, digitsToNat d1, digitsToNat d2) ::
            scanAux s fuel (pos + d1.length + 1 + d2.length)
        else scanAux s fuel (pos + 1)
      else scanAux s fuel (pos + 1)
    else []

/-- All marker matches of a line: `(start, end, chapter, verse)`. -/
def scanMarks (s : List Char) : List (Nat × Nat × Nat × Nat) := scanAux s s.length 0

/-- The digit run of `s` starting at position `p`. -/
def digitRun (s : List Char) (p : Nat) : List Char :=
  (s.drop p).takeWhile (fun c => c.isDigit)

/-- The end position of the marker match attempted at `pos`. -/
def mEnd (s : List Char) (pos : Nat) : Nat :=
  pos + (digitRun s pos).length + 1 +
    (digitRun s (pos + (digitRun s pos).length + 1)).length

/-- The claim-side predicate for C6: positions `i..j` hold a substring of the
form digits `:` digits (both runs nonempty) that is neither immediately
preceded nor immediately followed by a further digit. -/
def Qual (s : List Char) (i j : Nat) : Prop :=
  j ≤ s.length ∧
  (i = 0 ∨ (s.getD (i - 1) ' ').isDigit = false) ∧
  (j = s.length ∨ (s.getD j ' ').isDigit = false) ∧
  ∃ m, i < m ∧ m + 1 < j ∧ m < s.length ∧ s.getD m ' ' = ':' ∧
    (∀ k, i ≤ k → k < m → (s.getD k ' ').isDigit = true) ∧
    (∀ k, m < k → k < j → (s.getD k ' ').isDigit = true)

/-! ### The segment accumulator (`parse_raw` from `split_kjv_raw.py`)

The Python code stores `{chapter: {verse: text}}`; the two nested dicts are
flattened here into one association list keyed by `(chapter, verse)`
(`setdefault` on the outer dict has no other effect). -/

namespace Split

abbrev VMap := List ((Nat × Nat) × List Char)

def mapGet (m : VMap) (k : Nat × Nat) : Option (List Char) :=
  match m with
  | [] => none
  | (q, v) :: t => if q = k then some v else mapGet t k

def mapUpd (m : VMap) (k : Nat × Nat) (v : List Char) : VMap :=
  match m with
  | [] => [(k, v)]
  | (q, w) :: t => if q = k then (k, v) :: t else (q, w) :: mapUpd t k v

/-- `flush()` from `parse_raw`: normalize the open buffer and store it,
space-concatenating when the locator was already present. -/
def flush (m : VMap) (cur : Option ((Nat × Nat) × List Char)) : VMap :=
  match cur with
  | none => m
  | some (k, buf) =>
    let cleaned := normalize_spaces buf
    if cleaned = [] then m
    else
      match mapGet m k with
      | some old => mapUpd m k (normalize_spaces (old ++ ' ' :: cleaned))
      | none => mapUpd m k cleaned

/-- Pair each marker with the stripped text between its end and the start of
the next marker (or the end of the line): `line[m.end():next.start()].strip()`. -/
def markChunks (line : List Char) : List (Nat × Nat × Nat × Nat) → List ((Nat × Nat) × List Char)
  | [] => []
  | (_, e1, c1, v1) :: rest =>
    let nxt := match rest with
      | [] => line.length
      | (s2, _, _, _) :: _ => s2
    ((c1, v1), pstrip ((line.take nxt).drop e1)) :: markChunks line rest

/-- One line of the accumulator state machine. -/
def stepLine (st : VMap × Option ((Nat × Nat) × List Char)) (line : List Char) :
    VMap × Option ((Nat × Nat) × List Char) :=
  if pstrip line = [] then st
  else
    match scanMarks line with
    | [] =>
      match st.2 with
      | some (k, buf) => (st.1, some (k, buf ++ ' ' :: pstrip line))
      | none => st
    | (s1, e1, c1, v1) :: ms =>
      let st1 :=
        match st.2 with
        | some (k, buf) =>
          if 0 < s1 ∧ pstrip (line.take s1) ≠ [] then
            (st.1, some (k, buf ++ ' ' :: pstrip (line.take s1)))
          else st
        | none => st
      (markChunks line ((s1, e1, c1, v1) :: ms)).foldl
        (fun acc kc => (flush acc.1 acc.2, some kc)) st1

/-- `parse_raw` over a list of raw lines (the Python function receives the
text and iterates `text.splitlines()`; blank lines are skipped inside
`stepLine`). -/
def parse_raw (lines : List (List Char)) : VMap :=
  let st := lines.foldl stepLine ([], none)
  flush st.1 st.2

end Split

/-- Claim C8: the scanner/accumulator pipeline on the three raw lines of the
end-to-end scenario produces exactly the two records of chapter 1, with the
wrapped continuation line appended to verse 1. -/
theorem claim8_end_to_end :
    Split.parse_raw [("1:1 In the beginning".toList), ("God created the".toList),
      ("1:2 And the earth was".toList)] =
    [((1, 1), ("In the beginning God created the".toList)),
     ((1, 2), ("And the earth was".toList))] := by
  decide

/-! ### Shared grammar literals -/

def vPre : List Char := "V|N=".toList
def tPre : List Char := "T|EN=".toList
def enKey : List Char := "|EN=".toList
def koKey : List Char := "|KO=".toList
def bookKey : List Char := "#BOOK=".toList
def codeKey : List Char := "|BOOKCODE=".toList
def chapKey : List Char := "|CHAPTER=".toList
def headerTail : List Char := "|VERSION=KJV|LANGPAIR=EN-KO|ARCHAIC=INLINE_PARENS".toList
def untoL : List Char := "unto".toList
def untoParenL : List Char := "unto(".toList
def untoToL : List Char := "unto(to)".toList

/-! ### The strict validator (`tools/verify_chapter.py`) -/

namespace Strict

/-- The `[a-z0-9_]` class of `HEADER_RE`. -/
def isCodeChar (c : Char) : Bool := c.isLower || c.isDigit || c == '_'

/-- `HEADER_RE.match`: `^#BOOK=([^|]+)\|BOOKCODE=([a-z0-9_]+)\|CHAPTER=([0-9]+)`
followed by the literal fixed tail. -/
def headerMatch (l : List Char) : Bool :=
  match stripPre bookKey l with
  | none => false
  | some r1 =>
    let book := r1.takeWhile (fun c => !(c == '|'))
    if book = [] then false
    else
      match stripPre codeKey (r1.drop book.length) with
      | none => false
      | some r2 =>
        let code := r2.takeWhile isCodeChar
        if code = [] then false
        else
          match stripPre chapKey (r2.drop code.length) with
          | none => false
          | some r3 =>
            let ds := r3.takeWhile (fun c => c.isDigit)
            if ds = [] then false else decide (r3.drop ds.length = headerTail)

/-- `validate_header`: no space or tab anywhere, then the header regex. -/
def headerOk (l : List Char) : Bool :=
  !(l.contains (' ')) && !(l.contains ('\t')) && headerMatch l

/-- `TITLE_RE.match`: `^T\|EN=(.*)\|KO=(.*)$` (both groups may be empty; the
greedy `(.*)` splits at the last `|KO=`). -/
def titleOk (l : List Char) : Bool :=
  match stripPre tPre l with
  | none => false
  | some r => (splitLastAt koKey r).isSome

/-- `VERSE_RE.match`: `^V\|N=([0-9]+)\|EN=(.*)\|KO=(.*)$`. -/
def parseVerse (l : List Char) : Option (Nat × List Char × List Char) :=
  match stripPre vPre l with
  | none => none
  | some r1 =>
    let ds := r1.takeWhile (fun c => c.isDigit)
    if ds = [] then none
    else
      match stripPre enKey (r1.drop ds.length) with
      | none => none
      | some r2 =>
        match splitLastAt koKey r2 with
        | none => none
        | some (en, ko) => some (digitsToNat ds, en, ko)

/-- `validate_verse`: the regex, the pipe count, and the key-order checks. -/
def parseVerseFull (l : List Char) : Option (Nat × List Char × List Char) :=
  match parseVerse l with
  | none => none
  | some v =>
    if l.count ('|') ≠ 3 then none
    else if !(List.isPrefixOf vPre l) || findI enKey l = -1 || findI koKey l = -1 then none
    else if findI koKey l < findI enKey l then none
    else some v

/-- Validate every verse line (the collection loop of `main`). -/
def parseAll : List (List Char) → Option (List (Nat × List Char × List Char))
  | [] => some []
  | l :: ls =>
    match parseVerseFull l, parseAll ls with
    | some v, some vs => some (v :: vs)
    | _, _ => none

/-- The line-by-line `nums[i] == nums[i-1] + 1` check of `main`. -/
def chainB : List Nat → Bool
  | [] => true
  | [_] => true
  | a :: b :: t => (b == a + 1) && chainB (b :: t)

/-- Outcome of the strict validator: `PASS` with the verse count and the
empty-EN warning flag, or the first failure. -/
inductive VResult where
  | pass (count : Nat) (warnEmpty : Bool)
  | fail (tag : String)
deriving DecidableEq

/-- The four verse-number checks of `main`, in source order: first verse 1,
duplicates, gaps up to the maximum, line-by-line increments. -/
def numChecks (nums : List Nat) : Option String :=
  if nums.headD 0 ≠ 1 then some ("first")
  else if nums.any (fun n => decide (1 < nums.count n)) then some ("dup")
  else if (List.range' 1 (nums.foldl Nat.max 0)).any (fun e => !(nums.contains e)) then
    some ("missing")
  else if !(chainB nums) then some ("order")
  else none

/-- `main` of `tools/verify_chapter.py` from the point where the input lines
are available: blank-line check (`split_lines_strict`), length check, header,
title, verse lines, then the four continuity checks; an empty EN is only a
warning. -/
def verifyLines (ls : List (List Char)) : VResult :=
  if ls.any (fun l => decide (pstrip l = [])) then VResult.fail ("blank")
  else
    match ls with
    | l0 :: l1 :: l2 :: rest =>
      if !(headerOk l0) then VResult.fail ("header")
      else if !(titleOk l1) then VResult.fail ("title")
      else
        match parseAll (l2 :: rest) with
        | none => VResult.fail ("verse")
        | some verses =>
          match numChecks (verses.map (fun v => v.1)) with
          | some tag => VResult.fail tag
          | none =>
            VResult.pass verses.length (verses.any (fun v => decide (pstrip v.2.1 = [])))
    | _ => VResult.fail ("short")

/-- `main` from the raw text: `read_text(path).strip("\n")`, the emptiness
check, then `splitlines` and `verifyLines`. -/
def verifyText (t : List Char) : VResult :=
  let core := stripNL t
  if pstrip core = [] then VResult.fail ("empty")
  else verifyLines (splitLines core)

/-- Verse numbers of the verse lines of a document, in file order. -/
def numsOf (ls : List (List Char)) : List Nat :=
  (ls.drop 2).filterMap (fun l => (parseVerseFull l).map (fun v => v.1))

end Strict

/-! ### The alternate validator (`tools/verify/verify_chapter.py`) -/

namespace Alt

/-- The blank-line filter `if ln.strip() != ""` of `verify`. -/
def keepLine (l : List Char) : Bool := !(decide (pstrip l = []))

/-- `HEADER_RE` of the alternate validator: `BOOKCODE=([^|]+)` (any non-pipe
run) and no whitespace restriction. -/
def headerMatch (l : List Char) : Bool :=
  match stripPre bookKey l with
  | none => false
  | some r1 =>
    let book := r1.takeWhile (fun c => !(c == '|'))
    if book = [] then false
    else
      match stripPre codeKey (r1.drop book.length) with
      | none => false
      | some r2 =>
        let code := r2.takeWhile (fun c => !(c == '|'))
        if code = [] then false
        else
          match stripPre chapKey (r2.drop code.length) with
          | none => false
          | some r3 =>
            let ds := r3.takeWhile (fun c => c.isDigit)
            if ds = [] then false else decide (r3.drop ds.length = headerTail)

/-- `TITLE_RE`: `^T\|EN=(.+)\|KO=(.+)$` — both groups nonempty. -/
def titleOk (l : List Char) : Bool :=
  match stripPre tPre l with
  | none => false
  | some r => (splitLastPlus koKey r).isSome

/-- `VERSE_RE`: `^V\|N=(\d+)\|EN=(.+)\|KO=(.+)$` — EN and KO nonempty. -/
def parseVerse (l : List Char) : Option (Nat × List Char × List Char) :=
  match stripPre vPre l with
  | none => none
  | some r1 =>
    let ds := r1.takeWhile (fun c => c.isDigit)
    if ds = [] then none
    else
      match stripPre enKey (r1.drop ds.length) with
      | none => none
      | some r2 =>
        match splitLastPlus koKey r2 with
        | none => none
        | some (en, ko) => some (digitsToNat ds, en, ko)

/-- One attempt of `GLOSS_RE = ([A-Za-z]+)\(([^()]+)\)` at the current
position: maximal letter run, `(`, maximal non-paren run, `)`. -/
def tryGloss (l : List Char) : Option (List Char × List Char × List Char) :=
  if l.takeWhile (fun c => c.isAlpha) = [] then none
  else
    match l.drop (l.takeWhile (fun c => c.isAlpha)).length with
    | '(' :: r1 =>
      if r1.takeWhile (fun c => !(c == '(') && !(c == ')')) = [] then none
      else
        match r1.drop (r1.takeWhile (fun c => !(c == '(') && !(c == ')'))).length with
        | ')' :: r2 => some (l.takeWhile (fun c => c.isAlpha),
            r1.takeWhile (fun c => !(c == '(') && !(c == ')')), r2)
        | _ => none
    | _ => none

/-- Prepend a skipped character to the gap of the next match. -/
def consGap (c : Char) :
    List (List Char × List Char × List Char) → List (List Char × List Char × List Char)
  | [] => []
  | (gap, w, g) :: t => (c :: gap, w, g) :: t

/-- `GLOSS_RE.finditer`: each element is `(gap, word, gloss)` where `gap` is
the text between the previous match (or the start) and this match.  Fuel is
one unit per consumed character. -/
def glossAux : Nat → List Char → List (List Char × List Char × List Char)
  | 0, _ => []
  | _, [] => []
  | fuel + 1, c :: cs =>
    match tryGloss (c :: cs) with
    | some (w, g, rest) => ([], w, g) :: glossAux fuel rest
    | none => consGap c (glossAux fuel cs)

def glossScan (s : List Char) : List (List Char × List Char × List Char) :=
  glossAux s.length s

/-- `BETWEEN_ALLOWED_RE = ^[\s\W_]*$`: every character is allowed, i.e. is
not a letter and not a digit. -/
def betweenAllowed (l : List Char) : Bool := l.all (fun c => !(c.isAlpha || c.isDigit))

/-- The case-folded `(word, gloss)` key of a match. -/
def lowerKey (m : List Char × List Char × List Char) : List Char × List Char :=
  (m.2.1.map Char.toLower, m.2.2.map Char.toLower)

/-- The pairwise loop of `check_consecutive_duplicate_gloss`. -/
def consecDup : List (List Char × List Char × List Char) → Bool
  | m1 :: m2 :: rest =>
    (decide (lowerKey m1 = lowerKey m2) && betweenAllowed m2.1) || consecDup (m2 :: rest)
  | _ => false

def check_consecutive_duplicate_gloss (en : List Char) : Bool :=
  consecDup (glossScan en)

/-- The verse loop of `verify`: format, continuity, the two `unto` substring
checks, then the consecutive-duplicate-gloss check; returns the verse count. -/
def checkVerses : Nat → List (List Char) → Except String Nat
  | exp, [] => Except.ok (exp - 1)
  | exp, l :: ls =>
    match parseVerse l with
    | none => Except.error ("verse")
    | some (n, en, _) =>
      if n ≠ exp then Except.error ("continuity")
      else if occurs untoL en && !(occurs untoParenL en) then Except.error ("unto1")
      else if occurs untoL en && !(occurs untoToL en) then Except.error ("unto2")
      else if check_consecutive_duplicate_gloss en then Except.error ("gloss")
      else checkVerses (exp + 1) ls

/-- `verify` of `tools/verify/verify_chapter.py`: drop blank lines, require at
least three lines, match header and title, then run the verse loop. -/
def verify (ls : List (List Char)) : Except String Nat :=
  match ls.filter keepLine with
  | l0 :: l1 :: l2 :: rest =>
    if !(headerMatch l0) then Except.error ("header")
    else if !(titleOk l1) then Except.error ("title")
    else checkVerses 1 (l2 :: rest)
  | _ => Except.error ("short")

end Alt

/-! ### The record emitter (`tools/build_chapter_en_only.py`) -/

namespace Build

def BOOKNAME_MAP : List (String × String × String) :=
  [("gen", "Genesis", "창세기"), ("exo", "Exodus", "출애굽기"),
   ("lev", "Leviticus", "레위기"), ("num", "Numbers", "민수기"),
   ("deu", "Deuteronomy", "신명기")]

def lookupBook (c : String) : Option (String × String) :=
  match BOOKNAME_MAP.find? (fun e => e.1 == c) with
  | some e => some e.2
  | none => none

def headerLine (ben code : String) (ch : Nat) : String :=
  "#BOOK=" ++ ben ++ "|BOOKCODE=" ++ code ++ "|CHAPTER=" ++ toString ch ++
    "|VERSION=KJV|LANGPAIR=EN-KO|ARCHAIC=INLINE_PARENS"

def titleLine (ben bko : String) (ch : Nat) : String :=
  "T|EN=" ++ ben ++ " " ++ toString ch ++ "|KO=" ++ bko ++ " " ++ toString ch ++ "장"

def verseLine (p : Nat × String) : String :=
  "V|N=" ++ toString p.1 ++ "|EN=" ++ p.2 ++ "|KO="

/-- The sort key relation of `verses.sort(key=lambda x: x[0])`. -/
def keyLE (p q : Nat × String) : Prop := p.1 ≤ q.1

instance : DecidableRel keyLE := fun p q => Nat.decLe p.1 q.1

instance : IsTotal (Nat × String) keyLE := ⟨fun a b => Nat.le_total a.1 b.1⟩

instance : IsTrans (Nat × String) keyLE := ⟨fun _ _ _ hab hbc => Nat.le_trans hab hbc⟩

/-- `main` of `build_chapter_en_only.py` from the point where the verse list
has been parsed from the intermediate file: unknown book code, empty verse
list, or first (minimum) verse number other than 1 abort the chapter;
otherwise the header, the title, and one canonical verse line per verse are
emitted in ascending verse order (Python `list.sort` is stable, as is the
insertion sort used here). -/
def build_chapter (bookcode : String) (chapter : Nat) (verses : List (Nat × String)) :
    Option (List String) :=
  match lookupBook bookcode with
  | none => none
  | some bk =>
    if verses.isEmpty then none
    else
      let sorted := List.insertionSort keyLE verses
      if (sorted.headD (0, "")).1 ≠ 1 then none
      else some (headerLine bk.1 bookcode chapter :: titleLine bk.1 bk.2 chapter ::
        sorted.map verseLine)

end Build


/-! ### Lemmas: whitespace normalization -/

theorem wordsAux_append_space (a : List Char) : ∀ (acc b : List Char),
    wordsAux (a ++ ' ' :: b) acc = wordsAux a acc ++ wordsAux b [] := by
  induction a with
  | nil =>
    intro acc b
    by_cases h : acc = [] <;> simp [wordsAux, h]
  | cons c cs ih =>
    intro acc b
    by_cases hws : c.isWhitespace = true
    · by_cases h : acc = [] <;> simp [wordsAux, hws, h, ih]
    · simp [wordsAux, hws, ih]

theorem wordsAux_all_nonspace (w : List Char) : ∀ acc : List Char,
    (∀ c ∈ w, c.isWhitespace = false) →
    wordsAux w acc = if acc.reverse ++ w = [] then [] else [acc.reverse ++ w] := by
  induction w with
  | nil =>
    intro acc _
    by_cases h : acc = [] <;> simp [wordsAux, h]
  | cons c cs ih =>
    intro acc h
    have hc : c.isWhitespace = false := h c (by simp)
    rw [show wordsAux (c :: cs) acc = wordsAux cs (c :: acc) by simp [wordsAux, hc]]
    rw [ih (c :: acc) (fun x hx => h x (by simp [hx]))]
    all_goals simp

theorem wordsAux_members (l : List Char) : ∀ acc : List Char,
    (∀ c ∈ acc, c.isWhitespace = false) →
    ∀ w ∈ wordsAux l acc, w ≠ [] ∧ ∀ c ∈ w, c.isWhitespace = false := by
  induction l with
  | nil =>
    intro acc hacc w hw
    by_cases h : acc = []
    · simp [wordsAux, h] at hw
    · simp [wordsAux, h] at hw
      subst hw
      refine ⟨by simpa using h, fun c hc => hacc c (by simpa using hc)⟩
  | cons c cs ih =>
    intro acc hacc w hw
    by_cases hws : c.isWhitespace = true
    · by_cases h : acc = []
      · rw [show wordsAux (c :: cs) acc = wordsAux cs [] by simp [wordsAux, hws, h]] at hw
        exact ih [] (by simp) w hw
      · rw [show wordsAux (c :: cs) acc = acc.reverse :: wordsAux cs [] by
          simp [wordsAux, hws, h]] at hw
        rcases List.mem_cons.mp hw with hw | hw
        · subst hw
          refine ⟨by simpa using h, fun x hx => hacc x (by simpa using hx)⟩
        · exact ih [] (by simp) w hw
    · rw [show wordsAux (c :: cs) acc = wordsAux cs (c :: acc) by simp [wordsAux, hws]] at hw
      refine ih (c :: acc) ?_ w hw
      intro x hx
      rcases List.mem_cons.mp hx with rfl | hx
      · simpa using hws
      · exact hacc x hx

theorem words_joinWords : ∀ L : List (List Char),
    (∀ w ∈ L, w ≠ [] ∧ ∀ c ∈ w, c.isWhitespace = false) →
    words (joinWords L) = L
  | [], _ => rfl
  | [w], h => by
    have hw := h w (by simp)
    show wordsAux w [] = [w]
    rw [wordsAux_all_nonspace w [] hw.2]
    simp [hw.1]
  | w :: w2 :: L, h => by
    have hw := h w (by simp)
    have ih := words_joinWords (w2 :: L) (fun x hx => h x (by simp [hx]))
    show wordsAux (w ++ ' ' :: joinWords (w2 :: L)) [] = w :: w2 :: L
    rw [wordsAux_append_space, wordsAux_all_nonspace w [] hw.2]
    simp only [List.reverse_nil, List.nil_append, hw.1, if_neg hw.1]
    rw [show wordsAux (joinWords (w2 :: L)) [] = words (joinWords (w2 :: L)) from rfl, ih]
    rfl

theorem joinWords_append : ∀ (L1 L2 : List (List Char)), L1 ≠ [] → L2 ≠ [] →
    joinWords (L1 ++ L2) = joinWords L1 ++ ' ' :: joinWords L2
  | [], _, h, _ => absurd rfl h
  | [w], L2, _, h2 => by
    cases L2 with
    | nil => exact absurd rfl h2
    | cons x t => rfl
  | w :: w2 :: L1, L2, _, h2 => by
    have ih := joinWords_append (w2 :: L1) L2 (by simp) h2
    show w ++ ' ' :: joinWords ((w2 :: L1) ++ L2) =
      (w ++ ' ' :: joinWords (w2 :: L1)) ++ ' ' :: joinWords L2
    rw [ih]
    simp

theorem normalize_spaces_idem (l : List Char) :
    normalize_spaces (normalize_spaces l) = normalize_spaces l := by
  unfold normalize_spaces
  rw [words_joinWords (words l) (wordsAux_members l [] (by simp))]

theorem normalize_spaces_join (x y : List Char) (hx : x ≠ []) (hy : y ≠ [])
    (hxf : normalize_spaces x = x) (hyf : normalize_spaces y = y) :
    normalize_spaces (x ++ ' ' :: y) = x ++ ' ' :: y := by
  have hwx : words x ≠ [] := by
    intro h
    apply hx
    rw [← hxf]
    unfold normalize_spaces
    rw [h]
    rfl
  have hwy : words y ≠ [] := by
    intro h
    apply hy
    rw [← hyf]
    unfold normalize_spaces
    rw [h]
    rfl
  unfold normalize_spaces
  rw [show words (x ++ ' ' :: y) = wordsAux x [] ++ wordsAux y [] from
    wordsAux_append_space x [] y]
  rw [show wordsAux x [] = words x from rfl, show wordsAux y [] = words y from rfl]
  rw [joinWords_append (words x) (words y) hwx hwy]
  rw [show joinWords (words x) = normalize_spaces x from rfl,
    show joinWords (words y) = normalize_spaces y from rfl, hxf, hyf]

theorem mapGet_mapUpd (m : Split.VMap) (k : Nat × Nat) (v : List Char) :
    Split.mapGet (Split.mapUpd m k v) k = some v := by
  induction m with
  | nil => simp [Split.mapUpd, Split.mapGet]
  | cons p t ih =>
    obtain ⟨q, w⟩ := p
    by_cases h : q = k
    · simp [Split.mapUpd, Split.mapGet, h]
    · simp [Split.mapUpd, Split.mapGet, h, ih]

/-- Claim C5: when `flush` closes a segment whose locator already has a stored
text (a segment with that exact locator was flushed earlier in the run), the
stored text becomes the earlier text, a single space, then the newly
normalized text — a merge, not an overwrite.  The hypotheses state that the
stored text is a nonempty normalization fixpoint (which is how `flush` ever
stores anything) and that the new buffer has nonempty normalized content. -/
theorem claim5_flush_merge (m : Split.VMap) (k : Nat × Nat) (buf old : List Char)
    (hold : Split.mapGet m k = some old)
    (hfix : normalize_spaces old = old) (hne : old ≠ [])
    (hbuf : normalize_spaces buf ≠ []) :
    Split.mapGet (Split.flush m (some (k, buf))) k =
      some (old ++ ' ' :: normalize_spaces buf) := by
  unfold Split.flush
  simp only [hold, if_neg hbuf]
  rw [normalize_spaces_join old (normalize_spaces buf) hne hbuf hfix
    (normalize_spaces_idem buf)]
  exact mapGet_mapUpd m k (old ++ ' ' :: normalize_spaces buf)

/-- Witness for C5 at a concrete merge: locator `3:7` already stores `abc`,
a buffer `" def "` is flushed, and the stored text becomes `abc def`. -/
theorem claim5_witness :
    Split.mapGet (Split.flush [((3, 7), ("abc".toList))] (some ((3, 7), (" def ".toList))))
      (3, 7) = some (("abc def").toList) :=
  (claim5_flush_merge [((3, 7), ("abc".toList))] (3, 7) (" def ".toList) ("abc".toList)
    (by decide) (by decide) (by decide) (by decide)).trans (by decide)

/-! ### Claims C2 and C10: blank lines and newline stripping -/

/-- A canonical three-line document followed by two newlines: its line list
contains a blank final line, yet the strict validator accepts it. -/
def blankTailText : List Char :=
  ("#BOOK=Genesis|BOOKCODE=gen|CHAPTER=1|VERSION=KJV|LANGPAIR=EN-KO|ARCHAIC=INLINE_PARENS\nT|EN=Genesis 1|KO=k\nV|N=1|EN=In the beginning|KO=\n\n").toList

/-- Lines with an interior blank line, which the alternate validator
silently filters out. -/
def blankMidLines : List (List Char) :=
  [("#BOOK=Genesis|BOOKCODE=gen|CHAPTER=1|VERSION=KJV|LANGPAIR=EN-KO|ARCHAIC=INLINE_PARENS".toList),
   ([]),
   ("T|EN=Genesis 1|KO=k".toList),
   ("V|N=1|EN=In the beginning|KO=x".toList)]

/-- Counterexample to C2: a document that contains a blank line (its final
split line is empty) is accepted by the strict validator, and the alternate
validator accepts a document with an interior blank line by silently
dropping it. -/
theorem claim2_cex :
    ((splitLines blankTailText).any (fun l => decide (pstrip l = [])) = true) ∧
    Strict.verifyText blankTailText = Strict.VResult.pass 1 false ∧
    Alt.verify blankMidLines = Except.ok 1 :=
  ⟨by decide, by decide, by rfl⟩

/-- Claim C2 (amended): in the strict validator any blank line that survives
the initial stripping of leading and trailing newlines is fatal — if the
split of the stripped text contains a blank line, validation fails. -/
theorem claim2_blank_line_fatal (t : List Char)
    (h : (splitLines (stripNL t)).any (fun l => decide (pstrip l = [])) = true) :
    ∃ m, Strict.verifyText t = Strict.VResult.fail m := by
  unfold Strict.verifyText
  by_cases he : pstrip (stripNL t) = []
  · exact ⟨"empty", by simp [he]⟩
  · refine ⟨"blank", ?_⟩
    rw [if_neg he]
    unfold Strict.verifyLines
    rw [if_pos h]

/-- Witness for C2 (amended) at a concrete input with an interior blank
line. -/
theorem claim2_witness :
    ∃ m, Strict.verifyText (("a\n\nb").toList) = Strict.VResult.fail m :=
  claim2_blank_line_fatal (("a\n\nb").toList) (by decide)

theorem dropWhile_replicate_append (p : Char → Bool) (c : Char) (hp : p c = true)
    (r : List Char) : ∀ a : Nat, (List.replicate a c ++ r).dropWhile p = r.dropWhile p := by
  intro a
  induction a with
  | zero => simp
  | succ n ih => simp [List.replicate_succ, List.dropWhile, hp, ih]

theorem dropWhile_head_not (p : Char → Bool) (l : List Char)
    (h : ∀ c, l.head? = some c → p c = false) : l.dropWhile p = l := by
  cases l with
  | nil => rfl
  | cons c cs => simp [List.dropWhile, h c rfl]

theorem stripNL_pad (u : List Char) (a b : Nat)
    (h1 : u.head? ≠ some '\n') (h2 : u.getLast? ≠ some '\n') :
    stripNL (List.replicate a '\n' ++ u ++ List.replicate b '\n') = u := by
  have hnl : (fun c => decide (c = '\n')) '\n' = true := by decide
  unfold stripNL
  rw [show List.replicate a '\n' ++ u ++ List.replicate b '\n' =
    List.replicate a '\n' ++ (u ++ List.replicate b '\n') by simp]
  rw [dropWhile_replicate_append _ '\n' hnl _ a]
  cases u with
  | nil =>
    simp only [List.nil_append]
    have hb : List.dropWhile (fun c => decide (c = '\n')) (List.replicate b '\n') = [] := by
      have h0 := dropWhile_replicate_append (fun c => decide (c = '\n')) '\n' hnl [] b
      simp only [List.append_nil] at h0
      rw [h0]
      rfl
    rw [hb]
    rfl
  | cons x u' =>
    have hx : (fun c => decide (c = '\n')) x = false := by
      simp only [List.head?_cons, ne_eq, Option.some.injEq] at h1
      simpa using h1
    have e1 : List.dropWhile (fun c => decide (c = '\n')) ((x :: u') ++ List.replicate b '\n')
        = (x :: u') ++ List.replicate b '\n' := by
      simp only [List.cons_append, List.dropWhile_cons, hx]
      simp
    rw [e1]
    rw [List.reverse_append, List.reverse_replicate]
    rw [dropWhile_replicate_append _ '\n' hnl _ b]
    have e2 : List.dropWhile (fun c => decide (c = '\n')) (x :: u').reverse
        = (x :: u').reverse := by
      apply dropWhile_head_not
      intro c hc
      rw [List.head?_reverse] at hc
      have hcc : ¬(c = '\n') := by
        intro hcc
        rw [hcc] at hc
        exact h2 hc
      simpa using hcc
    rw [e2]
    exact List.reverse_reverse (x :: u')

/-- Claim C10: the strict validator strips all leading and trailing newline
characters before any other check, so surrounding a document with empty
(newline-only) lines never changes the verdict; in particular a document
whose only blank lines are empty lines at the very start or very end is
accepted whenever its core is. -/
theorem claim10_newline_padding (u : List Char) (a b : Nat)
    (h1 : u.head? ≠ some '\n') (h2 : u.getLast? ≠ some '\n') :
    Strict.verifyText (List.replicate a '\n' ++ u ++ List.replicate b '\n') =
      Strict.verifyText u := by
  have h0 : stripNL u = u := by
    have h := stripNL_pad u 0 0 h1 h2
    simpa using h
  unfold Strict.verifyText
  rw [stripNL_pad u a b h1 h2, h0]

/-- Witness for C10: a concrete valid document surrounded by two leading and
three trailing newline-only blank lines is still accepted. -/
theorem claim10_witness :
    Strict.verifyText (List.replicate 2 '\n' ++
      ("#BOOK=Genesis|BOOKCODE=gen|CHAPTER=1|VERSION=KJV|LANGPAIR=EN-KO|ARCHAIC=INLINE_PARENS\nT|EN=Genesis 1|KO=k\nV|N=1|EN=In the beginning|KO=".toList) ++
      List.replicate 3 '\n') =
    Strict.verifyText
      ("#BOOK=Genesis|BOOKCODE=gen|CHAPTER=1|VERSION=KJV|LANGPAIR=EN-KO|ARCHAIC=INLINE_PARENS\nT|EN=Genesis 1|KO=k\nV|N=1|EN=In the beginning|KO=".toList) :=
  claim10_newline_padding _ 2 3 (by decide) (by decide)

/-! ### Claim C9: the record emitter -/

/-- Claim C9: `build_chapter` aborts when the verse list is empty or its
minimum verse number is not 1; when the minimum is 1 and the book code is in
the injected mapping, it emits exactly one header line, one title line, and
one canonical verse line per verse, sorted by verse number ascending. -/
theorem claim9_build_chapter (b : String) (c : Nat) (vs : List (Nat × String)) :
    (vs = [] → Build.build_chapter b c vs = none) ∧
    (∀ p ∈ vs, (∀ q ∈ vs, p.1 ≤ q.1) → p.1 ≠ 1 → Build.build_chapter b c vs = none) ∧
    (∀ bk, Build.lookupBook b = some bk → (∀ q ∈ vs, 1 ≤ q.1) → (∃ p ∈ vs, p.1 = 1) →
      ∃ l : List (Nat × String), Build.build_chapter b c vs =
          some (Build.headerLine bk.1 b c :: Build.titleLine bk.1 bk.2 c ::
            l.map Build.verseLine) ∧
        l.Perm vs ∧ l.Sorted Build.keyLE) := by
  refine ⟨?_, ?_, ?_⟩
  · intro h
    subst h
    cases hlb : Build.lookupBook b <;> simp [Build.build_chapter, hlb]
  · intro p hp hmin hp1
    cases hlb : Build.lookupBook b with
    | none => simp [Build.build_chapter, hlb]
    | some bk =>
      have hne : vs ≠ [] := by
        intro h
        rw [h] at hp
        exact absurd hp (List.not_mem_nil p)
      have hperm : (List.insertionSort Build.keyLE vs).Perm vs :=
        List.perm_insertionSort Build.keyLE vs
      have hsorted : (List.insertionSort Build.keyLE vs).Sorted Build.keyLE :=
        List.sorted_insertionSort Build.keyLE vs
      cases hs : List.insertionSort Build.keyLE vs with
      | nil =>
        rw [hs] at hperm
        exact absurd (hperm.symm.eq_nil) hne
      | cons x t =>
        rw [hs] at hperm hsorted
        have hx_mem : x ∈ vs := hperm.mem_iff.mp (by simp)
        have hxp : p.1 ≤ x.1 := hmin x hx_mem
        have hpx : x.1 ≤ p.1 := by
          have hp_mem : p ∈ x :: t := hperm.symm.mem_iff.mp hp
          rcases List.mem_cons.mp hp_mem with rfl | hp_mem
          · exact Nat.le_refl _
          · exact (List.sorted_cons.mp hsorted).1 p hp_mem
        have hx1 : x.1 ≠ 1 := by
          have : x.1 = p.1 := Nat.le_antisymm hpx hxp
          rw [this]
          exact hp1
        simp [Build.build_chapter, hlb, hne, hs, hx1]
  · intro bk hlb hall hone
    obtain ⟨p, hp, hp1⟩ := hone
    have hne : vs ≠ [] := by
      intro h
      rw [h] at hp
      exact absurd hp (List.not_mem_nil p)
    have hperm : (List.insertionSort Build.keyLE vs).Perm vs :=
      List.perm_insertionSort Build.keyLE vs
    have hsorted : (List.insertionSort Build.keyLE vs).Sorted Build.keyLE :=
      List.sorted_insertionSort Build.keyLE vs
    cases hs : List.insertionSort Build.keyLE vs with
    | nil =>
      rw [hs] at hperm
      exact absurd (hperm.symm.eq_nil) hne
    | cons x t =>
      rw [hs] at hperm hsorted
      have hx_mem : x ∈ vs := hperm.mem_iff.mp (by simp)
      have hx1 : x.1 = 1 := by
        have hub : x.1 ≤ p.1 := by
          have hp_mem : p ∈ x :: t := hperm.symm.mem_iff.mp hp
          rcases List.mem_cons.mp hp_mem with rfl | hp_mem
          · exact Nat.le_refl _
          · exact (List.sorted_cons.mp hsorted).1 p hp_mem
        have hlbnd : 1 ≤ x.1 := hall x hx_mem
        omega
      refine ⟨x :: t, ?_, hperm, hsorted⟩
      simp [Build.build_chapter, hlb, hne, hs, hx1]

/-- Witness for C9: book code `gen`, out-of-order verses `[(2, b), (1, a)]`;
the emitter succeeds and sorts them ascending. -/
theorem claim9_witness :
    ∃ l : List (Nat × String), Build.build_chapter ("gen") 1 [(2, "b"), (1, "a")] =
        some (Build.headerLine ("Genesis") ("gen") 1 ::
          Build.titleLine ("Genesis") ("창세기") 1 :: l.map Build.verseLine) ∧
      l.Perm [(2, "b"), (1, "a")] ∧ l.Sorted Build.keyLE :=
  (claim9_build_chapter ("gen") 1 [(2, "b"), (1, "a")]).2.2 (("Genesis"), ("창세기"))
    (by decide) (by decide) ⟨(1, "a"), by decide, rfl⟩

/-! ### Claims C3 and C4: continuity and the empty-EN policy -/

theorem chainB_range (l : List Nat) : ∀ a : Nat, Strict.chainB (a :: l) = true →
    a :: l = List.range' a (l.length + 1) := by
  induction l with
  | nil => intro a _; rfl
  | cons b t ih =>
    intro a h
    unfold Strict.chainB at h
    rw [Bool.and_eq_true] at h
    have hb : b = a + 1 := by simpa using h.1
    subst hb
    simp only [List.length_cons]
    rw [List.range'_succ]
    rw [← ih (a + 1) h.2]

theorem parseAll_map_fst : ∀ (ls : List (List Char)) (vs : List (Nat × List Char × List Char)),
    Strict.parseAll ls = some vs →
    ls.filterMap (fun l => (Strict.parseVerseFull l).map (fun v => v.1)) =
      vs.map (fun v => v.1) := by
  intro ls
  induction ls with
  | nil =>
    intro vs h
    simp only [Strict.parseAll, Option.some.injEq] at h
    subst h
    rfl
  | cons l t ih =>
    intro vs h
    unfold Strict.parseAll at h
    cases hv : Strict.parseVerseFull l with
    | none => rw [hv] at h; exact absurd h (by simp)
    | some v =>
      rw [hv] at h
      cases ht : Strict.parseAll t with
      | none => rw [ht] at h; exact absurd h (by simp)
      | some vt =>
        rw [ht] at h
        simp only [Option.some.injEq] at h
        subst h
        simp [List.filterMap_cons, hv, ih vt ht]

theorem parseAll_length : ∀ (ls : List (List Char)) (vs : List (Nat × List Char × List Char)),
    Strict.parseAll ls = some vs → vs.length = ls.length := by
  intro ls
  induction ls with
  | nil =>
    intro vs h
    simp only [Strict.parseAll, Option.some.injEq] at h
    subst h
    rfl
  | cons l t ih =>
    intro vs h
    unfold Strict.parseAll at h
    cases hv : Strict.parseVerseFull l with
    | none => rw [hv] at h; exact absurd h (by simp)
    | some v =>
      rw [hv] at h
      cases ht : Strict.parseAll t with
      | none => rw [ht] at h; exact absurd h (by simp)
      | some vt =>
        rw [ht] at h
        simp only [Option.some.injEq] at h
        subst h
        simp [ih vt ht]

theorem parseAll_any (p : Nat × List Char × List Char → Bool) :
    ∀ (ls : List (List Char)) (vs : List (Nat × List Char × List Char)),
    Strict.parseAll ls = some vs →
    (vs.any p = true ↔ ∃ l ∈ ls, ∃ v, Strict.parseVerseFull l = some v ∧ p v = true) := by
  intro ls
  induction ls with
  | nil =>
    intro vs h
    simp only [Strict.parseAll, Option.some.injEq] at h
    subst h
    simp
  | cons l t ih =>
    intro vs h
    unfold Strict.parseAll at h
    cases hv : Strict.parseVerseFull l with
    | none => rw [hv] at h; exact absurd h (by simp)
    | some v =>
      rw [hv] at h
      cases ht : Strict.parseAll t with
      | none => rw [ht] at h; exact absurd h (by simp)
      | some vt =>
        rw [ht] at h
        simp only [Option.some.injEq] at h
        subst h
        constructor
        · intro hany
          rw [List.any_cons, Bool.or_eq_true] at hany
          rcases hany with hp | hp
          · exact ⟨l, by simp, v, hv, hp⟩
          · obtain ⟨l', hl', v', hv', hp'⟩ := (ih vt ht).mp hp
            exact ⟨l', by simp [hl'], v', hv', hp'⟩
        · rintro ⟨l', hl', v', hv', hp'⟩
          rw [List.any_cons, Bool.or_eq_true]
          rcases List.mem_cons.mp hl' with rfl | hl'
          · left
            rw [hv] at hv'
            cases hv'
            exact hp'
          · right
            exact (ih vt ht).mpr ⟨l', hl', v', hv', hp'⟩

theorem numChecks_none (nums : List Nat) (h : Strict.numChecks nums = none) :
    nums = List.range' 1 nums.length := by
  unfold Strict.numChecks at h
  split at h
  · exact absurd h (by simp)
  · split at h
    · exact absurd h (by simp)
    · split at h
      · exact absurd h (by simp)
      · split at h
        · exact absurd h (by simp)
        · rename_i hfirst _ _ horder
          cases nums with
          | nil => simp at hfirst
          | cons a l =>
            have ha : a = 1 := by simpa using hfirst
            subst ha
            have hc : Strict.chainB (1 :: l) = true := by simpa using horder
            simpa using chainB_range l 1 hc

/-- Claim C3: whenever the strict validator accepts a document, the verse
numbers of its verse lines, read in file order, are exactly `1, 2, ..., n`
(with `n` the reported count, which equals the number of verse lines); and
any document whose verse-number sequence deviates from `1..max` is rejected. -/
theorem claim3_continuity (ls : List (List Char)) :
    (∀ n w, Strict.verifyLines ls = Strict.VResult.pass n w →
      Strict.numsOf ls = List.range' 1 n ∧ n = (ls.drop 2).length) ∧
    (Strict.numsOf ls ≠ List.range' 1 ((ls.drop 2).length) →
      ∀ n w, Strict.verifyLines ls ≠ Strict.VResult.pass n w) := by
  have main : ∀ n w, Strict.verifyLines ls = Strict.VResult.pass n w →
      Strict.numsOf ls = List.range' 1 n ∧ n = (ls.drop 2).length := by
    intro n w h
    unfold Strict.verifyLines at h
    split at h
    · exact absurd h (by simp)
    · split at h
      · rename_i l0 l1 l2 rest hblank
        split at h
        · exact absurd h (by simp)
        · split at h
          · exact absurd h (by simp)
          · split at h
            · exact absurd h (by simp)
            · rename_i verses hparse
              split at h
              · exact absurd h (by simp)
              · rename_i hnum
                rw [Strict.VResult.pass.injEq] at h
                obtain ⟨hn, hw⟩ := h
                have hfm := parseAll_map_fst (l2 :: rest) verses hparse
                have hlen := parseAll_length (l2 :: rest) verses hparse
                have hrange := numChecks_none (verses.map (fun v => v.1)) hnum
                constructor
                · show Strict.numsOf (l0 :: l1 :: l2 :: rest) = List.range' 1 n
                  unfold Strict.numsOf
                  simp only [List.drop_succ_cons, List.drop_zero]
                  rw [hfm, hrange]
                  simp only [List.length_map, hn]
                · rw [← hn, hlen]
                  simp
      · exact absurd h (by simp)
  refine ⟨main, ?_⟩
  intro hne n w h
  obtain ⟨h1, h2⟩ := main n w h
  exact hne (h2 ▸ h1)

/-- Witness for C3 at a concrete accepted two-verse document. -/
theorem claim3_witness :
    Strict.numsOf
      [("#BOOK=Genesis|BOOKCODE=gen|CHAPTER=1|VERSION=KJV|LANGPAIR=EN-KO|ARCHAIC=INLINE_PARENS".toList),
       ("T|EN=Genesis 1|KO=k".toList),
       ("V|N=1|EN=a|KO=".toList), ("V|N=2|EN=b|KO=".toList)] = List.range' 1 2 ∧
    2 = (([("#BOOK=Genesis|BOOKCODE=gen|CHAPTER=1|VERSION=KJV|LANGPAIR=EN-KO|ARCHAIC=INLINE_PARENS".toList),
       ("T|EN=Genesis 1|KO=k".toList),
       ("V|N=1|EN=a|KO=".toList), ("V|N=2|EN=b|KO=".toList)] : List (List Char)).drop 2).length :=
  (claim3_continuity _).1 2 false (by decide)

/-- A structurally valid EN-only document whose single verse has an empty EN
field. -/
def emptyENDoc : List (List Char) :=
  [("#BOOK=Genesis|BOOKCODE=gen|CHAPTER=1|VERSION=KJV|LANGPAIR=EN-KO|ARCHAIC=INLINE_PARENS".toList),
   ("T|EN=Genesis 1|KO=k".toList),
   ("V|N=1|EN=|KO=x".toList)]

/-- Counterexample to C4: on a structurally well-formed document whose verse
has an empty EN field, the strict validator passes with only a warning, but
the alternate validator (whose `VERSE_RE` requires a nonempty EN group)
fails — so "never causes validation to fail" is false for the repository's
validator in `tools/verify/verify_chapter.py`. -/
theorem claim4_cex :
    Strict.verifyLines emptyENDoc = Strict.VResult.pass 1 true ∧
    Alt.verify emptyENDoc = Except.error ("verse") :=
  ⟨by decide, by rfl⟩

/-- Claim C4 (amended): in the strict validator an empty EN field never
affects acceptance — on any accepted document the warning flag is set exactly
when some verse line has an empty (all-whitespace) EN field. -/
theorem claim4_empty_en (ls : List (List Char)) (n : Nat) (w : Bool)
    (h : Strict.verifyLines ls = Strict.VResult.pass n w) :
    (w = true ↔ ∃ l ∈ ls.drop 2, ∃ v : Nat × List Char × List Char,
      Strict.parseVerseFull l = some v ∧ pstrip v.2.1 = []) := by
  unfold Strict.verifyLines at h
  split at h
  · exact absurd h (by simp)
  · split at h
    · rename_i l0 l1 l2 rest hblank
      split at h
      · exact absurd h (by simp)
      · split at h
        · exact absurd h (by simp)
        · split at h
          · exact absurd h (by simp)
          · rename_i verses hparse
            split at h
            · exact absurd h (by simp)
            · rw [Strict.VResult.pass.injEq] at h
              obtain ⟨hn, hw⟩ := h
              rw [← hw]
              have hiff := parseAll_any (fun v => decide (pstrip v.2.1 = []))
                (l2 :: rest) verses hparse
              simp only [List.drop_succ_cons, List.drop_zero]
              rw [hiff]
              simp
    · exact absurd h (by simp)

/-- Witness for C4 (amended) at the concrete empty-EN document: the validator
passes it with the warning flag set. -/
theorem claim4_witness :
    (true = true ↔ ∃ l ∈ emptyENDoc.drop 2, ∃ v : Nat × List Char × List Char,
      Strict.parseVerseFull l = some v ∧ pstrip v.2.1 = []) :=
  claim4_empty_en emptyENDoc 1 true (by decide)

/-! ### Claim C1: the archaic `unto` rule -/

/-- The claim-side predicate for C1: the text has an occurrence of the bare
word `unto` (neither preceded nor followed by a letter) that is not
immediately followed by the gloss `(to)`. -/
def bareUntoUnglossed (en : List Char) : Bool :=
  (List.range (en.length + 1)).any (fun i =>
    List.isPrefixOf untoL (en.drop i) &&
    !(List.isPrefixOf (("(to)").toList) (en.drop (i + 4))) &&
    (decide (i = 0) || !(en.getD (i - 1) ' ').isAlpha) &&
    !(en.getD (i + 4) ' ').isAlpha)

/-- A document whose verse EN text contains one properly glossed `unto(to)`
and one bare, unglossed `unto`. -/
def untoMixedDoc : List (List Char) :=
  [("#BOOK=Genesis|BOOKCODE=gen|CHAPTER=1|VERSION=KJV|LANGPAIR=EN-KO|ARCHAIC=INLINE_PARENS".toList),
   ("T|EN=Genesis 1|KO=k".toList),
   ("V|N=1|EN=unto(to) unto him|KO=x".toList)]

/-- Counterexample to C1: the EN text `unto(to) unto him` has a bare
occurrence of `unto` with no gloss, so by the claim validation must fail with
a lexical violation; but the validator only tests the substrings `unto`,
`unto(` and `unto(to)` on the whole text, so it accepts the document. -/
theorem claim1_cex :
    Alt.verify untoMixedDoc = Except.ok 1 ∧
    bareUntoUnglossed (("unto(to) unto him").toList) = true :=
  ⟨by rfl, by decide⟩

theorem checkVerses_ok_unto : ∀ (vls : List (List Char)) (exp n : Nat),
    Alt.checkVerses exp vls = Except.ok n →
    ∀ l ∈ vls, ∀ v : Nat × List Char × List Char, Alt.parseVerse l = some v →
    occurs untoL v.2.1 = true →
    occurs untoParenL v.2.1 = true ∧ occurs untoToL v.2.1 = true := by
  intro vls
  induction vls with
  | nil =>
    intro exp n _ l hl
    exact absurd hl (List.not_mem_nil l)
  | cons l0 tl ih =>
    intro exp n h l hl v hv hu
    unfold Alt.checkVerses at h
    split at h
    · exact absurd h (by simp)
    · rename_i n0 en0 ko0 hp
      split at h
      · exact absurd h (by simp)
      · split at h
        · exact absurd h (by simp)
        · split at h
          · exact absurd h (by simp)
          · split at h
            · exact absurd h (by simp)
            · rename_i hcont hu1 hu2 hgl
              rcases List.mem_cons.mp hl with rfl | hl
              · rw [hp] at hv
                injection hv with hv
                subst hv
                constructor
                · simp only [Bool.and_eq_true, Bool.not_eq_true', not_and] at hu1
                  have h1 := hu1 hu
                  simpa using h1
                · simp only [Bool.and_eq_true, Bool.not_eq_true', not_and] at hu2
                  have h2 := hu2 hu
                  simpa using h2
              · exact ih (exp + 1) n h l hl v hv hu

theorem checkVerses_error_unto : ∀ (vls : List (List Char)) (exp : Nat) (t : String),
    Alt.checkVerses exp vls = Except.error t → (t = "unto1" ∨ t = "unto2") →
    ∃ l ∈ vls, ∃ v : Nat × List Char × List Char, Alt.parseVerse l = some v ∧
      occurs untoL v.2.1 = true ∧
      (occurs untoParenL v.2.1 = false ∨ occurs untoToL v.2.1 = false) := by
  intro vls
  induction vls with
  | nil =>
    intro exp t h _
    exact absurd h (by simp [Alt.checkVerses])
  | cons l0 tl ih =>
    intro exp t h ht
    unfold Alt.checkVerses at h
    split at h
    · simp only [Except.error.injEq] at h
      subst h
      rcases ht with ht | ht <;> exact absurd ht (by decide)
    · rename_i n0 en0 ko0 hp
      split at h
      · simp only [Except.error.injEq] at h
        subst h
        rcases ht with ht | ht <;> exact absurd ht (by decide)
      · split at h
        · rename_i hcont hc1
          refine ⟨l0, by simp, (n0, en0, ko0), hp, ?_⟩
          rw [Bool.and_eq_true, Bool.not_eq_true'] at hc1
          exact ⟨hc1.1, Or.inl hc1.2⟩
        · split at h
          · rename_i hcont hc1 hc2
            refine ⟨l0, by simp, (n0, en0, ko0), hp, ?_⟩
            rw [Bool.and_eq_true, Bool.not_eq_true'] at hc2
            exact ⟨hc2.1, Or.inr hc2.2⟩
          · split at h
            · simp only [Except.error.injEq] at h
              subst h
              rcases ht with ht | ht <;> exact absurd ht (by decide)
            · obtain ⟨l, hl, hrest⟩ := ih (exp + 1) t h ht
              exact ⟨l, by simp [hl], hrest⟩

/-- Claim C1 (amended): the validator's archaic rule is a whole-text substring
test, not a per-occurrence one — on any accepted document, every verse EN text
that contains the substring `unto` also contains the substrings `unto(` and
`unto(to)` somewhere; and when the validator reports one of the two `unto`
lexical violations, some verse EN contains `unto` but lacks `unto(` or
`unto(to)` as a substring. -/
theorem claim1_unto_substring (ls : List (List Char)) :
    (∀ n, Alt.verify ls = Except.ok n →
      ∀ l ∈ (ls.filter Alt.keepLine).drop 2, ∀ v : Nat × List Char × List Char,
        Alt.parseVerse l = some v → occurs untoL v.2.1 = true →
        occurs untoParenL v.2.1 = true ∧ occurs untoToL v.2.1 = true) ∧
    (∀ t, Alt.verify ls = Except.error t → (t = "unto1" ∨ t = "unto2") →
      ∃ l ∈ (ls.filter Alt.keepLine).drop 2, ∃ v : Nat × List Char × List Char,
        Alt.parseVerse l = some v ∧ occurs untoL v.2.1 = true ∧
        (occurs untoParenL v.2.1 = false ∨ occurs untoToL v.2.1 = false)) := by
  constructor
  · intro n h l hl v hv hu
    unfold Alt.verify at h
    split at h
    · rename_i l0 l1 l2 rest heq
      split at h
      · exact absurd h (by simp)
      · split at h
        · exact absurd h (by simp)
        · rw [heq] at hl
          simp only [List.drop_succ_cons, List.drop_zero] at hl
          exact checkVerses_ok_unto (l2 :: rest) 1 n h l hl v hv hu
    · exact absurd h (by simp)
  · intro t h ht
    unfold Alt.verify at h
    split at h
    · rename_i l0 l1 l2 rest heq
      split at h
      · simp only [Except.error.injEq] at h
        subst h
        rcases ht with ht | ht <;> exact absurd ht (by decide)
      · split at h
        · simp only [Except.error.injEq] at h
          subst h
          rcases ht with ht | ht <;> exact absurd ht (by decide)
        · rw [heq]
          simp only [List.drop_succ_cons, List.drop_zero]
          exact checkVerses_error_unto (l2 :: rest) 1 t h ht
    · rename_i hshape
      simp only [Except.error.injEq] at h
      subst h
      rcases ht with ht | ht <;> exact absurd ht (by decide)

/-- Witness for C1 (amended) at a concrete accepted document containing
`unto(to)`. -/
theorem claim1_witness :
    occurs untoParenL (("he went unto(to) the city").toList) = true ∧
    occurs untoToL (("he went unto(to) the city").toList) = true :=
  (claim1_unto_substring
    [("#BOOK=Genesis|BOOKCODE=gen|CHAPTER=1|VERSION=KJV|LANGPAIR=EN-KO|ARCHAIC=INLINE_PARENS".toList),
     ("T|EN=Genesis 1|KO=k".toList),
     ("V|N=1|EN=he went unto(to) the city|KO=x".toList)]).1 1 (by rfl)
    (("V|N=1|EN=he went unto(to) the city|KO=x").toList) (by decide)
    (1, ("he went unto(to) the city").toList, ("x").toList) (by decide) (by decide)

/-! ### Claim C7: the consecutive duplicate gloss rule -/

theorem mem_takeWhile_pred (p : Char → Bool) : ∀ (l : List Char), ∀ c ∈ l.takeWhile p,
    p c = true := by
  intro l
  induction l with
  | nil => simp
  | cons x xs ih =>
    intro c hc
    rw [List.takeWhile_cons] at hc
    by_cases hx : p x = true
    · rw [if_pos hx] at hc
      rcases List.mem_cons.mp hc with rfl | hc
      · exact hx
      · exact ih c hc
    · rw [if_neg hx] at hc
      exact absurd hc (List.not_mem_nil c)

theorem tryGloss_word (l : List Char) (w g rest : List Char)
    (h : Alt.tryGloss l = some (w, g, rest)) :
    w ≠ [] ∧ ∀ c ∈ w, c.isAlpha = true := by
  unfold Alt.tryGloss at h
  split at h
  · exact absurd h (by simp)
  · rename_i hw
    split at h
    · split at h
      · exact absurd h (by simp)
      · split at h
        · rename_i r2 hr2
          simp only [Option.some.injEq, Prod.mk.injEq] at h
          obtain ⟨hw1, _, _⟩ := h
          subst hw1
          exact ⟨hw, fun c hc => mem_takeWhile_pred _ l c hc⟩
        · exact absurd h (by simp)
    · exact absurd h (by simp)

theorem glossAux_word : ∀ (fuel : Nat) (l : List Char),
    ∀ m ∈ Alt.glossAux fuel l, m.2.1 ≠ [] ∧ ∀ c ∈ m.2.1, c.isAlpha = true := by
  intro fuel
  induction fuel with
  | zero =>
    intro l m hm
    simp [Alt.glossAux] at hm
  | succ f ih =>
    intro l m hm
    cases l with
    | nil => simp [Alt.glossAux] at hm
    | cons c cs =>
      cases htg : Alt.tryGloss (c :: cs) with
      | some wgr =>
        obtain ⟨w, g, rest⟩ := wgr
        have he : Alt.glossAux (f + 1) (c :: cs) = ([], w, g) :: Alt.glossAux f rest := by
          rw [show Alt.glossAux (f + 1) (c :: cs) = (match Alt.tryGloss (c :: cs) with
            | some (w, g, rest) => ([], w, g) :: Alt.glossAux f rest
            | none => Alt.consGap c (Alt.glossAux f cs)) from rfl, htg]
        rw [he] at hm
        rcases List.mem_cons.mp hm with rfl | hm
        · exact tryGloss_word (c :: cs) w g rest htg
        · exact ih rest m hm
      | none =>
        have he : Alt.glossAux (f + 1) (c :: cs) = Alt.consGap c (Alt.glossAux f cs) := by
          rw [show Alt.glossAux (f + 1) (c :: cs) = (match Alt.tryGloss (c :: cs) with
            | some (w, g, rest) => ([], w, g) :: Alt.glossAux f rest
            | none => Alt.consGap c (Alt.glossAux f cs)) from rfl, htg]
        rw [he] at hm
        cases hg : Alt.glossAux f cs with
        | nil =>
          rw [hg] at hm
          simp [Alt.consGap] at hm
        | cons m0 t =>
          rw [hg] at hm
          obtain ⟨gap0, w0, g0⟩ := m0
          simp only [Alt.consGap, List.mem_cons] at hm
          rcases hm with rfl | hm
          · have h0 := ih cs (gap0, w0, g0) (by rw [hg]; simp)
            exact h0
          · exact ih cs m (by rw [hg]; simp [hm])

theorem consecDup_true_adjacent : ∀ L : List (List Char × List Char × List Char),
    Alt.consecDup L = true →
    ∃ pre m1 m2 post, L = pre ++ m1 :: m2 :: post ∧
      Alt.lowerKey m1 = Alt.lowerKey m2 ∧ Alt.betweenAllowed m2.1 = true := by
  intro L
  induction L with
  | nil =>
    intro h
    simp [Alt.consecDup] at h
  | cons m1 T ih =>
    intro h
    cases T with
    | nil => simp [Alt.consecDup] at h
    | cons m2 rest =>
      unfold Alt.consecDup at h
      rw [Bool.or_eq_true] at h
      rcases h with h | h
      · rw [Bool.and_eq_true] at h
        exact ⟨[], m1, m2, rest, rfl, by simpa using h.1, h.2⟩
      · obtain ⟨pre, a, b, post, heq, hk, hb⟩ := ih h
        exact ⟨m1 :: pre, a, b, post, by simp [heq], hk, hb⟩

theorem consecDup_of_adjacent :
    ∀ (pre : List (List Char × List Char × List Char)) (m1 m2 : _) (post : List _),
    Alt.lowerKey m1 = Alt.lowerKey m2 → Alt.betweenAllowed m2.1 = true →
    Alt.consecDup (pre ++ m1 :: m2 :: post) = true := by
  intro pre
  induction pre with
  | nil =>
    intro m1 m2 post hk hb
    simp [Alt.consecDup, hk, hb]
  | cons x pre' ih =>
    intro m1 m2 post hk hb
    have h := ih m1 m2 post hk hb
    cases hpp : pre' ++ m1 :: m2 :: post with
    | nil => exact absurd hpp (by simp)
    | cons y t =>
      rw [List.cons_append, hpp]
      unfold Alt.consecDup
      rw [← hpp, h]
      simp

/-- The full text a gloss match stands for, gap included. -/
def segText (m : List Char × List Char × List Char) : List Char :=
  m.1 ++ m.2.1 ++ '(' :: m.2.2 ++ [')']

/-- Claim C7: the validator's duplicate-gloss failure on a verse EN text
holds if and only if the scan of the text contains two gloss annotations with
the same case-folded word and gloss whose intervening text — made of the gaps
and the full rendered matches between them — contains no letters and no
digits.  (In particular two such annotations with only punctuation,
whitespace or underscores between them are necessarily adjacent matches:
any match in between would contribute the letters of its word.) -/
theorem claim7_consecutive_gloss (en : List Char) :
    Alt.check_consecutive_duplicate_gloss en = true ↔
    ∃ pre m1 mid m2 post,
      Alt.glossScan en = pre ++ m1 :: mid ++ m2 :: post ∧
      Alt.lowerKey m1 = Alt.lowerKey m2 ∧
      Alt.betweenAllowed ((mid.map segText).flatten ++ m2.1) = true := by
  constructor
  · intro h
    obtain ⟨pre, m1, m2, post, heq, hk, hb⟩ := consecDup_true_adjacent _ h
    exact ⟨pre, m1, [], m2, post, by simpa using heq, hk, by simpa using hb⟩
  · rintro ⟨pre, m1, mid, m2, post, heq, hk, hb⟩
    cases mid with
    | nil =>
      unfold Alt.check_consecutive_duplicate_gloss
      rw [show Alt.glossScan en = pre ++ m1 :: m2 :: post by simpa using heq]
      exact consecDup_of_adjacent pre m1 m2 post hk (by simpa using hb)
    | cons mm mid' =>
      exfalso
      have hmm : mm ∈ Alt.glossScan en := by
        rw [heq]
        simp
      obtain ⟨hne, hal⟩ := glossAux_word en.length en mm hmm
      obtain ⟨c, hc⟩ := List.exists_mem_of_ne_nil mm.2.1 hne
      have hca := hal c hc
      have hcin : c ∈ (((mm :: mid').map segText).flatten ++ m2.1) := by
        apply List.mem_append_left
        apply List.mem_flatten.mpr
        refine ⟨segText mm, by simp, ?_⟩
        unfold segText
        exact List.mem_append_left _ (List.mem_append_left _ (List.mem_append_right _ hc))
      have hall := (List.all_eq_true.mp hb) c hcin
      rw [hca] at hall
      simp at hall

/-! ### Claim C6: the locator scanner -/

theorem scanAux_succ (s : List Char) (fuel pos : Nat) :
    scanAux s (fuel + 1) pos =
      if pos < s.length then
        if (s.getD pos ' ').isDigit = true ∧
            (pos = 0 ∨ (s.getD (pos - 1) ' ').isDigit = false) then
          if s.getD (pos + (digitRun s pos).length) ' ' = ':' ∧
              digitRun s (pos + (digitRun s pos).length + 1) ≠ [] then
            (pos, mEnd s pos, digitsToNat (digitRun s pos),
              digitsToNat (digitRun s (pos + (digitRun s pos).length + 1))) ::
              scanAux s fuel (mEnd s pos)
          else scanAux s fuel (pos + 1)
        else scanAux s fuel (pos + 1)
      else [] := rfl

theorem takeWhile_getD (p : Char → Bool) : ∀ (l : List Char) (k : Nat),
    k < (l.takeWhile p).length → p (l.getD k ' ') = true := by
  intro l
  induction l with
  | nil => intro k hk; simp at hk
  | cons c cs ih =>
    intro k hk
    rw [List.takeWhile_cons] at hk
    by_cases hc : p c = true
    · rw [if_pos hc] at hk
      cases k with
      | zero => simpa using hc
      | succ k' =>
        simp only [List.length_cons, Nat.succ_lt_succ_iff] at hk
        simpa using ih k' hk
    · rw [if_neg hc] at hk
      simp at hk

theorem takeWhile_boundary (p : Char → Bool) : ∀ (l : List Char),
    (l.takeWhile p).length < l.length → p (l.getD (l.takeWhile p).length ' ') = false := by
  intro l
  induction l with
  | nil => intro h; simp at h
  | cons c cs ih =>
    intro h
    rw [List.takeWhile_cons] at h ⊢
    by_cases hc : p c = true
    · rw [if_pos hc] at h ⊢
      simp only [List.length_cons, Nat.succ_lt_succ_iff] at h
      simpa using ih h
    · rw [if_neg hc] at h ⊢
      simpa using hc

theorem takeWhile_ge (p : Char → Bool) : ∀ (l : List Char) (n : Nat), n ≤ l.length →
    (∀ k, k < n → p (l.getD k ' ') = true) → n ≤ (l.takeWhile p).length := by
  intro l
  induction l with
  | nil => intro n hn _; simpa using hn
  | cons c cs ih =>
    intro n hn hall
    cases n with
    | zero => simp
    | succ n' =>
      have hc : p c = true := by simpa using hall 0 (Nat.succ_pos n')
      rw [List.takeWhile_cons, if_pos hc]
      simp only [List.length_cons, Nat.succ_le_succ_iff]
      refine ih n' (by simpa using hn) ?_
      intro k hk
      have hh := hall (k + 1) (Nat.succ_lt_succ hk)
      simpa using hh

theorem getD_drop (s : List Char) : ∀ (n k : Nat), (s.drop n).getD k ' ' = s.getD (n + k) ' ' := by
  induction s with
  | nil => intro n k; simp
  | cons c cs ih =>
    intro n k
    cases n with
    | zero => simp
    | succ n' =>
      rw [List.drop_succ_cons, ih n' k]
      rw [show n' + 1 + k = (n' + k) + 1 by omega]
      simp

theorem getD_colon_lt (s : List Char) (m : Nat) (h : s.getD m ' ' = ':') : m < s.length := by
  by_contra hm
  rw [List.getD_eq_default _ _ (by omega)] at h
  exact absurd h (by decide)

theorem digitRun_getD (s : List Char) (p k : Nat) (hk : k < (digitRun s p).length) :
    (s.getD (p + k) ' ').isDigit = true := by
  have h := takeWhile_getD (fun c => c.isDigit) (s.drop p) k hk
  rwa [getD_drop] at h

theorem digitRun_boundary (s : List Char) (p : Nat)
    (h : p + (digitRun s p).length < s.length) :
    (s.getD (p + (digitRun s p).length) ' ').isDigit = false := by
  have hlt : (digitRun s p).length < (s.drop p).length := by
    rw [List.length_drop]
    omega
  have hb := takeWhile_boundary (fun c => c.isDigit) (s.drop p) hlt
  rwa [getD_drop] at hb

theorem digitRun_ge (s : List Char) (p n : Nat) (hn : p + n ≤ s.length)
    (hall : ∀ k, k < n → (s.getD (p + k) ' ').isDigit = true) :
    n ≤ (digitRun s p).length := by
  refine takeWhile_ge _ (s.drop p) n ?_ ?_
  · rw [List.length_drop]
    omega
  · intro k hk
    rw [getD_drop]
    exact hall k hk

theorem takeWhile_length_le (p : Char → Bool) : ∀ l : List Char,
    (l.takeWhile p).length ≤ l.length := by
  intro l
  induction l with
  | nil => simp
  | cons c cs ih =>
    rw [List.takeWhile_cons]
    by_cases hc : p c = true
    · rw [if_pos hc]
      simpa using ih
    · rw [if_neg hc]
      simp

theorem digitRun_le (s : List Char) (p : Nat) : (digitRun s p).length ≤ s.length - p := by
  have h := takeWhile_length_le (fun c => c.isDigit) (s.drop p)
  simpa [List.length_drop] using h

theorem scanAux_sound : ∀ (fuel : Nat) (s : List Char) (pos : Nat),
    s.length ≤ fuel + pos →
    ∀ q ∈ scanAux s fuel pos, pos ≤ q.1 ∧ Qual s q.1 q.2.1 := by
  intro fuel
  induction fuel with
  | zero =>
    intro s pos hf q hq
    simp [scanAux] at hq
  | succ f ih =>
    intro s pos hf q hq
    rw [scanAux_succ] at hq
    by_cases hp : pos < s.length
    · rw [if_pos hp] at hq
      by_cases hd : (s.getD pos ' ').isDigit = true ∧
          (pos = 0 ∨ (s.getD (pos - 1) ' ').isDigit = false)
      · rw [if_pos hd] at hq
        by_cases hm : s.getD (pos + (digitRun s pos).length) ' ' = ':' ∧
            digitRun s (pos + (digitRun s pos).length + 1) ≠ []
        · rw [if_pos hm] at hq
          have hL1 : 1 ≤ (digitRun s pos).length := by
            refine digitRun_ge s pos 1 (by omega) ?_
            intro k hk
            have hk0 : k = 0 := by omega
            subst hk0
            simpa using hd.1
          have hcl : pos + (digitRun s pos).length < s.length := getD_colon_lt s _ hm.1
          have hL2 : 1 ≤ (digitRun s (pos + (digitRun s pos).length + 1)).length := by
            have hpos := List.length_pos.mpr hm.2
            omega
          have hEnd : mEnd s pos ≤ s.length := by
            have h2 := digitRun_le s (pos + (digitRun s pos).length + 1)
            unfold mEnd
            omega
          have h3 : pos + 3 ≤ mEnd s pos := by
            unfold mEnd
            omega
          rcases List.mem_cons.mp hq with rfl | hq
          · refine ⟨Nat.le_refl _, ?_⟩
            show Qual s pos (mEnd s pos)
            refine ⟨hEnd, hd.2, ?_, ?_⟩
            · by_cases hje : mEnd s pos = s.length
              · exact Or.inl hje
              · refine Or.inr ?_
                have hsplit : mEnd s pos = (pos + (digitRun s pos).length + 1) +
                    (digitRun s (pos + (digitRun s pos).length + 1)).length := by
                  unfold mEnd
                  omega
                rw [hsplit]
                refine digitRun_boundary s _ ?_
                rw [← hsplit]
                omega
            · refine ⟨pos + (digitRun s pos).length, by omega, ?_, hcl, hm.1, ?_, ?_⟩
              · unfold mEnd
                omega
              · intro k hk1 hk2
                have hk : k = pos + (k - pos) := by omega
                rw [hk]
                exact digitRun_getD s pos (k - pos) (by omega)
              · intro k hk1 hk2
                unfold mEnd at hk2
                have hk : k = (pos + (digitRun s pos).length + 1) +
                    (k - (pos + (digitRun s pos).length + 1)) := by omega
                rw [hk]
                refine digitRun_getD s _ _ ?_
                omega
          · have hr := ih s (mEnd s pos) (by omega) q hq
            exact ⟨by omega, hr.2⟩
        · rw [if_neg hm] at hq
          have hr := ih s (pos + 1) (by omega) q hq
          exact ⟨by omega, hr.2⟩
      · rw [if_neg hd] at hq
        have hr := ih s (pos + 1) (by omega) q hq
        exact ⟨by omega, hr.2⟩
    · rw [if_neg hp] at hq
      simp at hq

theorem scanAux_complete : ∀ (fuel : Nat) (s : List Char) (pos i j : Nat),
    s.length ≤ fuel + pos → pos ≤ i → Qual s i j →
    ∃ q ∈ scanAux s fuel pos, q.1 < j ∧ i < q.2.1 := by
  intro fuel
  induction fuel with
  | zero =>
    intro s pos i j hf hpi hq
    obtain ⟨hj, hbl, hbr, m, him, hmj, hms, hcol, hd1, hd2⟩ := hq
    omega
  | succ f ih =>
    intro s pos i j hf hpi hq
    obtain ⟨hj, hbl, hbr, m, him, hmj, hms, hcol, hd1, hd2⟩ := hq
    by_cases hp : pos < s.length
    swap
    · omega
    rw [scanAux_succ, if_pos hp]
    by_cases hd : (s.getD pos ' ').isDigit = true ∧
        (pos = 0 ∨ (s.getD (pos - 1) ' ').isDigit = false)
    · rw [if_pos hd]
      by_cases hmm : s.getD (pos + (digitRun s pos).length) ' ' = ':' ∧
          digitRun s (pos + (digitRun s pos).length + 1) ≠ []
      · rw [if_pos hmm]
        have hL1 : 1 ≤ (digitRun s pos).length := by
          refine digitRun_ge s pos 1 (by omega) ?_
          intro k hk
          have hk0 : k = 0 := by omega
          subst hk0
          simpa using hd.1
        have hL2 : 1 ≤ (digitRun s (pos + (digitRun s pos).length + 1)).length :=
          List.length_pos.mpr hmm.2
        have h3 : pos + 3 ≤ mEnd s pos := by
          unfold mEnd
          omega
        by_cases hie : i < mEnd s pos
        · exact ⟨_, List.mem_cons_self _ _, by omega, hie⟩
        · have hr := ih s (mEnd s pos) i j (by omega) (by omega)
            ⟨hj, hbl, hbr, m, him, hmj, hms, hcol, hd1, hd2⟩
          obtain ⟨q, hqmem, hq1, hq2⟩ := hr
          exact ⟨q, List.mem_cons_of_mem _ hqmem, hq1, hq2⟩
      · rw [if_neg hmm]
        have hne : pos ≠ i := by
          intro he
          subst he
          apply hmm
          have hub : m - pos ≤ (digitRun s pos).length := by
            refine digitRun_ge s pos (m - pos) (by omega) ?_
            intro k hk
            exact hd1 (pos + k) (by omega) (by omega)
          have hlb : (digitRun s pos).length ≤ m - pos := by
            by_contra hgt
            push_neg at hgt
            have hdig := digitRun_getD s pos (m - pos) (by omega)
            rw [show pos + (m - pos) = m by omega] at hdig
            rw [hcol] at hdig
            exact absurd hdig (by decide)
          have hL1m : pos + (digitRun s pos).length = m := by omega
          constructor
          · rw [hL1m]
            exact hcol
          · rw [hL1m]
            have hd21 : (s.getD (m + 1) ' ').isDigit = true := hd2 (m + 1) (by omega) hmj
            have hge : 1 ≤ (digitRun s (m + 1)).length := by
              refine digitRun_ge s (m + 1) 1 (by omega) ?_
              intro k hk
              have hk0 : k = 0 := by omega
              subst hk0
              simpa using hd21
            intro hnil
            rw [hnil] at hge
            simp at hge
        exact ih s (pos + 1) i j (by omega) (by omega)
          ⟨hj, hbl, hbr, m, him, hmj, hms, hcol, hd1, hd2⟩
    · rw [if_neg hd]
      have hne : pos ≠ i := by
        intro he
        subst he
        apply hd
        exact ⟨hd1 pos (Nat.le_refl _) him, hbl⟩
      exact ih s (pos + 1) i j (by omega) (by omega)
        ⟨hj, hbl, hbr, m, him, hmj, hms, hcol, hd1, hd2⟩

/-- Claim C6 (amended): the scanner reports, left to right without overlap,
the substrings of the form digits `:` digits that are neither preceded nor
followed by an additional digit: every reported marker is such a substring
(so a digit run like `12:345` followed by a digit is never reported as two
shorter markers — the reported runs are always flanked by non-digits), and
every such substring overlaps some reported marker (it is reported itself
unless an earlier, overlapping match consumed part of it). -/
theorem claim6_scanner (s : List Char) :
    (∀ q ∈ scanMarks s, Qual s q.1 q.2.1) ∧
    (∀ i j, Qual s i j → ∃ q ∈ scanMarks s, q.1 < j ∧ i < q.2.1) := by
  constructor
  · intro q hq
    exact (scanAux_sound s.length s 0 (by omega) q hq).2
  · intro i j hq
    exact scanAux_complete s.length s 0 i j (by omega) (Nat.zero_le i) hq

/-- Counterexample to C6 as stated: in `1:2:3` the substring `2:3` (positions
2 to 5) matches digits `:` digits and is neither preceded nor followed by a
digit, yet the scanner does not report it — the scan reports only `1:2`,
because matching resumes after the end of an earlier match. -/
theorem claim6_cex :
    Qual (("1:2:3").toList) 2 5 ∧
    ∀ q ∈ scanMarks (("1:2:3").toList), ¬(q.1 = 2 ∧ q.2.1 = 5) := by
  constructor
  · refine ⟨by decide, Or.inr (by decide), Or.inl (by decide), 3, by decide, by decide,
      by decide, by decide, ?_, ?_⟩
    · intro k hk1 hk2
      have hk : k = 2 := by omega
      subst hk
      decide
    · intro k hk1 hk2
      have hk : k = 4 := by omega
      subst hk
      decide
  · decide

/-- Witness for C6 (amended): the single marker reported on `1:1x` is a
qualifying substring. -/
theorem claim6_witness : Qual (("1:1x").toList) 0 3 :=
  (claim6_scanner (("1:1x").toList)).1 (0, 3, 1, 1) (by decide)
